import Mathlib

/-!
Shallow embedding of the `galvanize` reactive state-graph library
(`src/galvanize.ts`, bundled via `src/webpack.config.js`).

Keys are modelled as `String` (the library allows string / number / symbol
keys; every claim under scrutiny uses string keys, and the tie-break
comparison `String(a).localeCompare(String(b))` is modelled as the
lexicographic order on strings).  Values are modelled as `Option Int`:
`none` plays the role of JavaScript `undefined`, `some n` is a number.

The engine's synchronous behaviour is embedded as pure state-passing
functions.  Asynchronous behaviour (request derivers returning promises)
is embedded by recording, in an effect list, when the engine invokes a
request function and when it attaches itself to a returned pending
computation; the later settlement of such a computation is a separate
step (`settle`) mirroring the `then` / `catch` handlers installed in
`StateGraph.update`.

Loops of the source that are not structurally recursive (`push_fast`'s
queue loop, `push_accurate`'s closure traversal and stabilization loop)
are embedded with an explicit fuel parameter returning `Option`; fuel
exhaustion yields `none`.  Termination of accurate mode for every graph
is then a theorem: sufficient fuel always exists.
-/

namespace Galvanize

/-- A state map: property key to value; `none` models `undefined`. -/
abbrev StateMap := String → Option Int

/-- Boolean membership test used to model `Set.has` / `in`. -/
def memB (k : String) (l : List String) : Bool := decide (k ∈ l)

/-- A deriver record, mirroring the `ExplicitlyDerived` interface:
`{ params, func, order?, is_request? }`.  For a request deriver, `func st
= some v` models the async function returning a promise (the eventual
resolved value is chosen by the environment at settlement time, so the
payload is irrelevant to the synchronous engine); `func st = none` models
it returning `null`. -/
structure Deriver where
  params : List String
  func : StateMap → Option Int
  order : Option String := none
  is_request : Bool := false

/-- Propagation mode, mirroring the `"fast" | "accurate"` union. -/
inductive Mode where
  | fast
  | accurate
deriving DecidableEq

/-- Observable side effects of the synchronous engine: a change
notification dispatched for a key (`dispatch_change`), an invocation of a
request deriver's async function, the engine attaching to a returned
pending computation, and a `console.error` log. -/
inductive Effect where
  | notified (k : String)
  | invoked (k : String)
  | requested (k : String)
  | logged
deriving DecidableEq

/-- Association-list lookup, modelling JavaScript object indexing
`obj[key]` (objects preserve insertion order of keys; lookup by key). -/
def lookupkv {α : Type} (l : List (String × α)) (k : String) : Option α :=
  (l.find? (fun kv => kv.1 = k)).map (fun kv => kv.2)

/-- The graph: registered derivers (insertion order), the dependency
index `deps`, the live state map, the default push mode, and the watcher
registries.  Watcher callbacks are modelled by identity tokens (`Nat`),
since the source removes them by reference identity (`x !== watcher`). -/
structure StateGraph where
  derivers : List (String × Deriver)
  deps : List (String × List String)
  state : StateMap
  push_default_mode : Mode := Mode.accurate
  watchers : List (String × List Nat) := []
  global_watchers : List Nat := []

/-- `this.deps[n]` with the `if(dep)` guard: a missing entry behaves as
an empty dependent list. -/
def depsOf (deps : List (String × List String)) (k : String) : List String :=
  (lookupkv deps k).getD []

/-- `Set.add`: append if not present (JavaScript sets preserve insertion
order and ignore re-insertion). -/
def addSet (s : List String) (k : String) : List String :=
  if memB k s then s else s ++ [k]

/-- `Object.assign(state, newState)`: write every batch entry, later
entries overriding earlier ones. -/
def assign (st : StateMap) (batch : List (String × Int)) : StateMap :=
  batch.foldl (fun s kv => fun k => if k = kv.1 then some kv.2 else s k) st

/-- `Object.keys(newState)`. -/
def batchKeys (batch : List (String × Int)) : List String :=
  batch.map (fun kv => kv.1)

/-- `StateGraph.update(key, newState)` (the synchronous body; the promise
handlers installed on a returned pending computation are modelled by
`settle` below).  Returns the new state map and the effects performed. -/
def updateK (ds : List (String × Deriver)) (bk : List String)
    (st : StateMap) (key : String) : StateMap × List Effect :=
  match lookupkv ds key with
  | none => (st, [])
  | some d =>
    if d.is_request then
      if memB key bk then
        (st, [Effect.notified key])
      else
        match d.func st with
        | some _ => (st, [Effect.invoked key, Effect.requested key])
        | none => (st, [Effect.invoked key])
    else
      ((fun k => if k = key then d.func st else st k), [Effect.notified key])

/-- The queue loop of `push_fast`, with fuel (the source loop does not
terminate on cyclic graphs). -/
def pushFastAux (ds : List (String × Deriver)) (deps : List (String × List String))
    (bk : List String) :
    Nat → StateMap → List String → List String → List Effect →
    Option (StateMap × List String × List Effect)
  | _, st, [], visited, effs => some (st, visited, effs)
  | 0, _, _ :: _, _, _ => none
  | n + 1, st, q :: rest, visited, effs =>
    let r := updateK ds bk st q
    pushFastAux ds deps bk n r.1 (rest ++ depsOf deps q) (visited ++ [q]) (effs ++ r.2)

/-- `StateGraph.push_fast(newState)`: assign the batch, then run the
breadth-first queue loop. -/
def pushFast (fuel : Nat) (ds : List (String × Deriver))
    (deps : List (String × List String)) (st : StateMap)
    (batch : List (String × Int)) : Option (StateMap × List String × List Effect) :=
  pushFastAux ds deps (batchKeys batch) fuel (assign st batch) (batchKeys batch) [] []

/-- The closure traversal of `push_accurate`: breadth-first walk of the
dependency index collecting `to_be_updated` (insertion order preserved). -/
def closureAux (deps : List (String × List String)) :
    Nat → List String → List String → Option (List String)
  | _, s, [] => some s
  | 0, _, _ :: _ => none
  | n + 1, s, f :: rest =>
    let s' := addSet s f
    let pushed := (depsOf deps f).filter (fun d => !(memB d s'))
    closureAux deps n s' (rest ++ pushed)

/-- `canUpdate(key)`: a key is eligible when it has no deriver, or none
of its deriver's params is still pending. -/
def canUpdate (ds : List (String × Deriver)) (live : List String) (k : String) : Bool :=
  match lookupkv ds k with
  | some d => d.params.all (fun p => !(memB p live))
  | none => true

/-- One `for (const u of to_be_updated)` pass of the stabilization loop:
iterate the pending set in insertion order, updating every eligible key
(eligibility is checked against the continuously shrinking live set, as
deletion during iteration is visible to later eligibility checks). -/
def stabPass (ds : List (String × Deriver)) (bk : List String) :
    List String → List String → StateMap → List String → List Effect → Bool →
    StateMap × List String × List String × List Effect × Bool
  | [], live, st, order, effs, upd => (st, live, order, effs, upd)
  | u :: rest, live, st, order, effs, upd =>
    if canUpdate ds live u then
      let r := updateK ds bk st u
      stabPass ds bk rest (live.erase u) r.1 (order ++ [u]) (effs ++ r.2) true
    else
      stabPass ds bk rest live st order effs upd

/-- The `while (to_be_updated.size > 0) { ...; if(!any_updated) break }`
loop, with fuel (a fuel of `live.length + 1` always suffices, see
`stabLoop_isSome`). -/
def stabLoop (ds : List (String × Deriver)) (bk : List String) :
    Nat → StateMap → List String → List String → List Effect →
    Option (StateMap × List String × List String × List Effect)
  | fuel, st, live, order, effs =>
    if live.isEmpty then some (st, live, order, effs)
    else
      match fuel with
      | 0 => none
      | n + 1 =>
        let r := stabPass ds bk live live st order effs false
        if r.2.2.2.2 then stabLoop ds bk n r.1 r.2.1 r.2.2.1 r.2.2.2.1
        else some (r.1, r.2.1, r.2.2.1, r.2.2.2.1)

/-- The sort key of the cycle fallback:
`this.derivers[a]?.order || String(a)` (an empty tie-break string is
falsy in JavaScript and falls back to the key itself). -/
def orderKey (ds : List (String × Deriver)) (a : String) : String :=
  match lookupkv ds a with
  | some d =>
    match d.order with
    | some s => if s = "" then a else s
    | none => a
  | none => a

/-- Lexicographic comparison of character lists by code point: the
`localeCompare (...) ≤ 0` relation of the sort comparator (modelled as
code-unit lexicographic order). -/
def charsLe : List Char → List Char → Bool
  | [], _ => true
  | _ :: _, [] => false
  | c :: cs, d :: ds =>
    if c.toNat < d.toNat then true
    else if d.toNat < c.toNat then false
    else charsLe cs ds

/-- `a.localeCompare(b) ≤ 0`, modelled lexicographically. -/
def strLe (a b : String) : Bool := charsLe a.data b.data

/-- Stable insertion of `a` after every element whose key compares `≤`
its key. -/
def insertSorted (key : String → String) (a : String) : List String → List String
  | [] => [a]
  | b :: bs => if strLe (key b) (key a) then b :: insertSorted key a bs else a :: b :: bs

/-- Stable sort by a key function, modelling `Array.prototype.sort` with
the comparator `(a, b) => key(a).localeCompare(key(b))` (a stable sort
under a total preorder comparator is unique, so any stable algorithm is
a faithful model). -/
def sortByKey (key : String → String) (l : List String) : List String :=
  l.foldl (fun acc a => insertSorted key a acc) []

/-- The cycle-fallback pass: update each remaining key once, in sorted
order, accumulating order and effects. -/
def fallbackFold (ds : List (String × Deriver)) (bk : List String) :
    List String → StateMap → List String → List Effect →
    StateMap × List String × List Effect
  | [], st, order, effs => (st, order, effs)
  | u :: rest, st, order, effs =>
    let r := updateK ds bk st u
    fallbackFold ds bk rest r.1 (order ++ [u]) (effs ++ r.2)

/-- `StateGraph.push_accurate(newState)`: closure phase, batch apply,
stabilization loop, cycle fallback.  `fuel` bounds the closure traversal
only; the stabilization loop gets the always-sufficient fuel
`|to_be_updated| + 1`. -/
def pushAccurate (fuel : Nat) (ds : List (String × Deriver))
    (deps : List (String × List String)) (st : StateMap)
    (batch : List (String × Int)) : Option (StateMap × List String × List Effect) :=
  match closureAux deps fuel [] (batchKeys batch) with
  | none => none
  | some tbu =>
    match stabLoop ds (batchKeys batch) (tbu.length + 1) (assign st batch) tbu [] [] with
    | none => none
    | some (st1, live, order1, effs1) =>
      if live.isEmpty then some (st1, order1, effs1)
      else
        let sorted := sortByKey (orderKey ds) live
        let r := fallbackFold ds (batchKeys batch) sorted st1 order1 effs1
        some r

/-- The two phases of accurate mode, exposed separately: the keys
recomputed by the stabilization loop and the keys recomputed by the
cycle fallback. -/
def accuratePhases (fuel : Nat) (ds : List (String × Deriver))
    (deps : List (String × List String)) (st : StateMap)
    (batch : List (String × Int)) : Option (List String × List String) :=
  match closureAux deps fuel [] (batchKeys batch) with
  | none => none
  | some tbu =>
    match stabLoop ds (batchKeys batch) (tbu.length + 1) (assign st batch) tbu [] [] with
    | none => none
    | some (_, live, order1, _) =>
      if live.isEmpty then some (order1, [])
      else some (order1, sortByKey (orderKey ds) live)

/-- `StateGraph.push(newState, mode)`: `mode || this.push_default_mode`
selects the algorithm (`none` models the `null` default argument). -/
def pushGraph (fuel : Nat) (g : StateGraph) (batch : List (String × Int))
    (mode : Option Mode) : Option (StateGraph × List String × List Effect) :=
  if (mode.getD g.push_default_mode) = Mode.fast then
    (pushFast fuel g.derivers g.deps g.state batch).map
      (fun r => ({ g with state := r.1 }, r.2.1, r.2.2))
  else
    (pushAccurate fuel g.derivers g.deps g.state batch).map
      (fun r => ({ g with state := r.1 }, r.2.1, r.2.2))

/-- Settlement of a request deriver's pending computation, mirroring the
handlers installed in `update`: `x.then(value => this.push({[key]:
value})).catch(reason => console.error(reason))`.  Success issues a new
push of the resolved value with the default mode; failure only logs. -/
def settle (fuel : Nat) (g : StateGraph) (key : String)
    (outcome : Except String Int) : Option (StateGraph × List String × List Effect) :=
  match outcome with
  | Except.ok v => pushGraph fuel g [(key, v)] none
  | Except.error _ => some (g, [], [Effect.logged])

/-- `buildDeps` entry step: `(this.deps[dep] = (this.deps[dep] || [])).push(name)`. -/
def addDep (deps : List (String × List String)) (dep name : String) :
    List (String × List String) :=
  if (lookupkv deps dep).isSome then
    deps.map (fun kv => if kv.1 = dep then (kv.1, kv.2 ++ [name]) else kv)
  else deps ++ [(dep, [name])]

/-- The dependency-index construction loop of the constructor: for every
registered deriver, in registration order, append its name to the entry
of each of its params. -/
def buildDeps (ds : List (String × Deriver)) : List (String × List String) :=
  ds.foldl (fun acc nd => nd.2.params.foldl (fun a p => addDep a p nd.1) acc) []

/-- Object-spread merge `{...base, ...ext}`: base keys in order with
values overridden by `ext` where present, then `ext`'s new keys. -/
def spreadMerge (base ext : List (String × Deriver)) : List (String × Deriver) :=
  (base.map (fun kv => (kv.1, (lookupkv ext kv.1).getD kv.2))) ++
    ext.filter (fun kv => !(lookupkv base kv.1).isSome)

/-- The `StateGraph` constructor: merge derivers and requests (requests
get `is_request: true` and override same-named derivers via object
spread), build the dependency index, then push the defaults (if given)
with the default mode. -/
def mkGraph (fuel : Nat) (derivers requests : List (String × Deriver))
    (defaults : Option (List (String × Int))) : Option StateGraph :=
  let combined := spreadMerge derivers
    (requests.map (fun nd => (nd.1, { nd.2 with is_request := true })))
  let g0 : StateGraph :=
    { derivers := combined, deps := buildDeps combined, state := fun _ => none }
  match defaults with
  | none => some g0
  | some dfl => (pushGraph fuel g0 dfl none).map (fun r => r.1)

/-- `StateGraph.watch(name, watcher)`: create-or-extend the per-key
watcher list. -/
def watch (g : StateGraph) (name : String) (w : Nat) : StateGraph :=
  { g with watchers :=
      if (lookupkv g.watchers name).isSome then
        g.watchers.map (fun kv => if kv.1 = name then (kv.1, kv.2 ++ [w]) else kv)
      else g.watchers ++ [(name, [w])] }

/-- The unregistration closure returned by `watch`:
`this.watchers[name] = this.watchers[name].filter(x => x !== watcher)`. -/
def unwatch (g : StateGraph) (name : String) (w : Nat) : StateGraph :=
  { g with watchers :=
      g.watchers.map (fun kv =>
        if kv.1 = name then (kv.1, kv.2.filter (fun x => x ≠ w)) else kv) }

/-- `StateGraph.watch_all(watcher)`. -/
def watchAll (g : StateGraph) (w : Nat) : StateGraph :=
  { g with global_watchers := g.global_watchers ++ [w] }

/-- The unregistration closure returned by `watch_all`. -/
def unwatchAll (g : StateGraph) (w : Nat) : StateGraph :=
  { g with global_watchers := g.global_watchers.filter (fun x => x ≠ w) }

/-- The per-key watcher list (`this.watchers[name] || []` view). -/
def watchersOf (g : StateGraph) (name : String) : List Nat :=
  (lookupkv g.watchers name).getD []

/-- `dispatch_change(key)`: the sequence of callbacks invoked — per-key
watchers first, then global watchers. -/
def dispatchList (g : StateGraph) (key : String) : List Nat :=
  watchersOf g key ++ g.global_watchers

/-- A probed deriver function, for dependency extraction: since every
top-level read on the reporter returns `undefined`, a single probe run
is fully described by the sequence of keys the function reads
(`accesses`) and the value it returns (`ret`, discarded). -/
structure ProbeFn where
  accesses : List String
  ret : Option Int

/-- `PropGetReporter`'s proxy: each `get` trap appends the accessed name
to the `fetched` array and returns `undefined`.  Running the probed
function against the reporter therefore appends every access, in order,
to `fetched`. -/
def runProbe : List String → List String → List String
  | [], fetched => fetched
  | k :: ks, fetched => runProbe ks (fetched ++ [k])

/-- `ExtractDeriver(fn).params`: the `fetched` array after the single
probe invocation `fn(getter)` against a fresh reporter; the probe's
return value is ignored. -/
def extractParams (fn : ProbeFn) : List String :=
  runProbe fn.accesses []

/-- The params list the specification describes: accessed keys with each
key kept only at its first access (deduplicated). -/
def extractParamsSpec (fn : ProbeFn) : List String :=
  fn.accesses.foldl (fun acc k => if k ∈ acc then acc else acc ++ [k]) []

/-- The closure state of `ThrottleRequest`: the `in_progress` flag. -/
structure ThrottleState where
  in_progress : Bool
deriving DecidableEq

/-- Events observable at a throttled request deriver: an invocation of
the wrapper (`yields` tells whether the underlying request would return
a promise), or the settlement of the outstanding computation (`success`
distinguishes fulfilment from rejection; the `finally` handler clears
the flag in both cases). -/
inductive TEvent where
  | invoke (yields : Bool)
  | settleEv (success : Bool)
deriving DecidableEq

/-- One step of the throttled wrapper.  Returns the new closure state,
the number of underlying-request invocations performed (0 or 1), and
whether a pending computation was produced by this step. -/
def throttleStep (s : ThrottleState) : TEvent → ThrottleState × Nat × Bool
  | TEvent.invoke yields =>
    if s.in_progress then (s, 0, false)
    else if yields then ({ in_progress := true }, 1, true)
    else ({ in_progress := false }, 1, false)
  | TEvent.settleEv _ => ({ in_progress := false }, 0, false)

/-- Run a trace of events from a throttle state, accumulating the number
of underlying invocations and the number of outstanding (produced but
unsettled) pending computations. -/
def throttleRun : ThrottleState × Nat × Nat → List TEvent → ThrottleState × Nat × Nat
  | acc, [] => acc
  | (s, calls, outst), e :: rest =>
    let r := throttleStep s e
    let outst' := match e with
      | TEvent.invoke _ => if r.2.2 then outst + 1 else outst
      | TEvent.settleEv _ => outst - 1
    throttleRun (r.1, calls + r.2.1, outst') rest

/-- The initial throttle closure state: `let in_progress = false`. -/
def throttleInit : ThrottleState × Nat × Nat := ({ in_progress := false }, 0, 0)

/-- The key an effect concerns, if any. -/
def effectKey : Effect → Option String
  | Effect.notified k => some k
  | Effect.invoked k => some k
  | Effect.requested k => some k
  | Effect.logged => none

/-- Index of the first queue entry not yet in the visited set (length of
the queue if none): the secondary termination measure of the closure
traversal. -/
def firstIdxNot (s : List String) : List String → Nat
  | [] => 0
  | x :: xs => if memB x s then firstIdxNot s xs + 1 else 0

/-- The deriver of the specification's example scenario,
`B: state => state.A + 5`, registered as a bare function whose params
are discovered by probing (the probe reads exactly `A`, once). -/
def exampleDeriverB : Deriver :=
  { params := extractParams { accesses := ["A"], ret := none },
    func := fun st => match st ("A") with
      | some a => some (a + 5)
      | none => none }

/-- `X: state => state.Y` of the cycle-termination scenario. -/
def cycleDeriverX : Deriver :=
  { params := ["Y"], func := fun st => st ("Y") }

/-- `Y: state => state.X` of the cycle-termination scenario. -/
def cycleDeriverY : Deriver :=
  { params := ["X"], func := fun st => st ("X") }

/-- A request deriver depending on `A` whose async function always
returns a promise. -/
def requestDeriverR : Deriver :=
  { params := ["A"], func := fun _ => some 0, is_request := true }

/-- The graph of the cycle-termination scenario. -/
def cycleGraph : StateGraph :=
  { derivers := [("X", cycleDeriverX), ("Y", cycleDeriverY)],
    deps := buildDeps [("X", cycleDeriverX), ("Y", cycleDeriverY)],
    state := fun _ => none }

/-- The graph of the request-failure scenario. -/
def requestGraph : StateGraph :=
  { derivers := [("R", requestDeriverR)],
    deps := buildDeps [("R", requestDeriverR)],
    state := fun _ => none }

/-! ### Helper lemmas -/

theorem memB_iff {k : String} {l : List String} : memB k l = true ↔ k ∈ l := by
  simp [memB]

theorem memB_eq_false {k : String} {l : List String} :
    memB k l = false ↔ k ∉ l := by
  simp [memB]

theorem mem_addSet {k x : String} {s : List String} :
    x ∈ addSet s k ↔ x ∈ s ∨ x = k := by
  unfold addSet
  by_cases h : memB k s = true
  · simp only [h, if_true]
    constructor
    · exact fun hx => Or.inl hx
    · rintro (hx | rfl)
      · exact hx
      · exact memB_iff.mp h
  · simp only [h]
    simp [List.mem_append]

theorem addSet_of_mem {k : String} {s : List String} (h : k ∈ s) :
    addSet s k = s := by
  unfold addSet
  simp [memB_iff.mpr h]

theorem addSet_nodup {k : String} {s : List String} (h : s.Nodup) :
    (addSet s k).Nodup := by
  unfold addSet
  by_cases hk : memB k s = true
  · simp [hk, h]
  · rw [if_neg hk]
    have hk' : k ∉ s := memB_eq_false.mp (by simpa using hk)
    rw [List.nodup_append]
    refine ⟨h, List.nodup_singleton k, ?_⟩
    intro a ha hb
    simp only [List.mem_singleton] at hb
    exact hk' (hb ▸ ha)

theorem firstIdxNot_append_le (s rest pushed : List String)
    (hp : ∀ x ∈ pushed, x ∉ s) :
    firstIdxNot s (rest ++ pushed) ≤ firstIdxNot s rest := by
  induction rest with
  | nil =>
    cases pushed with
    | nil => simp [firstIdxNot]
    | cons x xs =>
      have hx : x ∉ s := hp x (List.mem_cons_self x xs)
      simp [firstIdxNot, memB_eq_false.mpr hx]
  | cons y ys ih =>
    by_cases hy : memB y s = true
    · simpa [firstIdxNot, hy] using ih
    · simp [firstIdxNot, hy]

theorem filter_length_mono (U : List String) (p q : String → Bool)
    (hpq : ∀ x, q x = true → p x = true) :
    (U.filter q).length ≤ (U.filter p).length := by
  induction U with
  | nil => simp
  | cons a U' ih =>
    by_cases hq : q a = true
    · simp [List.filter_cons, hq, hpq a hq, Nat.succ_le_succ ih]
    · have : q a = false := Bool.not_eq_true _ ▸ (by simpa using hq)
      by_cases hp : p a = true
      · simp only [List.filter_cons, this, hp, if_true, if_false]
        simpa using Nat.le_succ_of_le ih
      · have hp' : p a = false := Bool.not_eq_true _ ▸ (by simpa using hp)
        simpa [List.filter_cons, this, hp'] using ih

theorem filter_length_lt (U : List String) (p q : String → Bool) (f : String)
    (hf : f ∈ U) (hpq : ∀ x, q x = true → p x = true)
    (hpf : p f = true) (hqf : q f = false) :
    (U.filter q).length < (U.filter p).length := by
  induction U with
  | nil => cases hf
  | cons a U' ih =>
    rcases List.mem_cons.mp hf with rfl | hf'
    · have := filter_length_mono U' p q hpq
      simp only [List.filter_cons, hpf, hqf, if_true, if_false]
      exact Nat.lt_succ_of_le this
    · by_cases hq : q a = true
      · simp [List.filter_cons, hq, hpq a hq, Nat.succ_lt_succ (ih hf')]
      · have hq' : q a = false := Bool.not_eq_true _ ▸ (by simpa using hq)
        by_cases hp : p a = true
        · simp only [List.filter_cons, hq', hp, if_true, if_false]
          exact Nat.lt_succ_of_lt (ih hf')
        · have hp' : p a = false := Bool.not_eq_true _ ▸ (by simpa using hp)
          simpa [List.filter_cons, hq', hp'] using ih hf'

theorem mem_depsOf {deps : List (String × List String)} {f x : String}
    (hx : x ∈ depsOf deps f) : ∃ p ∈ deps, x ∈ p.2 := by
  unfold depsOf lookupkv at hx
  cases hfind : deps.find? (fun kv => kv.1 = f) with
  | none =>
    rw [hfind] at hx
    exact absurd hx (by simp)
  | some kv =>
    rw [hfind] at hx
    simp at hx
    exact ⟨kv, List.mem_of_find?_eq_some hfind, hx⟩

/-- The closure traversal of accurate mode always has enough fuel: the
primary measure is the number of universe keys not yet visited, the
secondary one the distance to the first unvisited queue entry. -/
theorem closureAux_ex (deps : List (String × List String)) (U : List String)
    (hU : ∀ p ∈ deps, ∀ x ∈ p.2, x ∈ U) (S Q : List String)
    (hQ : ∀ x ∈ Q, x ∈ U) : ∃ n, (closureAux deps n S Q).isSome := by
  match Q, hQ with
  | [], _ => exact ⟨0, rfl⟩
  | f :: rest, hQ =>
    have hfU : f ∈ U := hQ f (List.mem_cons_self f rest)
    have hQ' : ∀ x ∈ rest ++ (depsOf deps f).filter (fun d => !(memB d (addSet S f))),
        x ∈ U := by
      intro x hx
      rcases List.mem_append.mp hx with hx | hx
      · exact hQ x (List.mem_cons_of_mem f hx)
      · obtain ⟨p, hp, hxp⟩ := mem_depsOf (List.mem_of_mem_filter hx)
        exact hU p hp x hxp
    obtain ⟨n, hn⟩ := closureAux_ex deps U hU (addSet S f)
      (rest ++ (depsOf deps f).filter (fun d => !(memB d (addSet S f)))) hQ'
    exact ⟨n + 1, hn⟩
termination_by ((U.filter (fun x => !(memB x S))).length, firstIdxNot S Q)
decreasing_by
  by_cases hf : memB f S = true
  · have hSf : addSet S f = S := addSet_of_mem (memB_iff.mp hf)
    rw [hSf]
    apply Prod.Lex.right
    have hle := firstIdxNot_append_le S rest
      ((depsOf deps f).filter (fun d => !(memB d S)))
      (by
        intro x hx
        have := List.of_mem_filter hx
        exact memB_eq_false.mp (by simpa using this))
    have heq : firstIdxNot S (f :: rest) = firstIdxNot S rest + 1 := by
      simp [firstIdxNot, hf]
    rw [heq]
    exact Nat.lt_succ_of_le hle
  · apply Prod.Lex.left
    apply filter_length_lt U (fun x => !(memB x S)) (fun x => !(memB x (addSet S f))) f hfU
    · intro x hx
      have hx' : memB x (addSet S f) = false := by
        cases h : memB x (addSet S f) with
        | true => rw [h] at hx; simp at hx
        | false => rfl
      have : x ∉ addSet S f := memB_eq_false.mp hx'
      have : x ∉ S := fun hxs => this (mem_addSet.mpr (Or.inl hxs))
      simp [memB_eq_false.mpr this]
    · have : f ∉ S := memB_eq_false.mp (by simpa using hf)
      simp [memB_eq_false.mpr this]
    · have : f ∈ addSet S f := mem_addSet.mpr (Or.inr rfl)
      simp [memB_iff.mpr this]

theorem closureAux_nodup (deps : List (String × List String)) :
    ∀ (n : Nat) (S Q S₂ : List String),
    closureAux deps n S Q = some S₂ → S.Nodup → S₂.Nodup := by
  intro n
  induction n with
  | zero =>
    intro S Q S₂ h hS
    cases Q with
    | nil => exact (Option.some.inj h) ▸ hS
    | cons f rest => exact Option.noConfusion h
  | succ n ih =>
    intro S Q S₂ h hS
    cases Q with
    | nil => exact (Option.some.inj h) ▸ hS
    | cons f rest => exact ih _ _ _ h (addSet_nodup hS)

theorem stabPass_live_le (ds : List (String × Deriver)) (bk : List String) :
    ∀ (tv live : List String) (st : StateMap) (order : List String)
      (effs : List Effect) (upd : Bool),
    (stabPass ds bk tv live st order effs upd).2.1.length ≤ live.length := by
  intro tv
  induction tv with
  | nil => intro live st order effs upd; exact Nat.le_refl _
  | cons u rest ih =>
    intro live st order effs upd
    by_cases hc : canUpdate ds live u = true
    · have h1 := ih (live.erase u) (updateK ds bk st u).1 (order ++ [u])
        (effs ++ (updateK ds bk st u).2) true
      have h2 : (live.erase u).length ≤ live.length :=
        (List.erase_sublist u live).length_le
      simpa [stabPass, hc] using Nat.le_trans h1 h2
    · simpa [stabPass, hc] using ih live st order effs upd

theorem stabPass_nodup (ds : List (String × Deriver)) (bk : List String) :
    ∀ (tv live : List String) (st : StateMap) (order : List String)
      (effs : List Effect) (upd : Bool), live.Nodup →
    (stabPass ds bk tv live st order effs upd).2.1.Nodup := by
  intro tv
  induction tv with
  | nil => intro live st order effs upd h; exact h
  | cons u rest ih =>
    intro live st order effs upd h
    by_cases hc : canUpdate ds live u = true
    · simpa [stabPass, hc] using ih (live.erase u) _ _ _ true (h.erase u)
    · simpa [stabPass, hc] using ih live st order effs upd h

theorem stabPass_progress (ds : List (String × Deriver)) (bk : List String) :
    ∀ (tv live : List String) (st : StateMap) (order : List String)
      (effs : List Effect),
    (∀ x ∈ tv, x ∈ live) →
    (stabPass ds bk tv live st order effs false).2.2.2.2 = true →
    (stabPass ds bk tv live st order effs false).2.1.length < live.length := by
  intro tv
  induction tv with
  | nil =>
    intro live st order effs _ hupd
    exact absurd hupd (by simp [stabPass])
  | cons u rest ih =>
    intro live st order effs hsub hupd
    by_cases hc : canUpdate ds live u = true
    · have hu : u ∈ live := hsub u (List.mem_cons_self u rest)
      have h1 := stabPass_live_le ds bk rest (live.erase u) (updateK ds bk st u).1
        (order ++ [u]) (effs ++ (updateK ds bk st u).2) true
      have h2 : (live.erase u).length < live.length := by
        rw [List.length_erase_of_mem hu]
        exact Nat.pred_lt (Nat.not_eq_zero_of_lt (List.length_pos_of_mem hu))
      simpa [stabPass, hc] using Nat.lt_of_le_of_lt h1 h2
    · rw [show stabPass ds bk (u :: rest) live st order effs false
          = stabPass ds bk rest live st order effs false by simp [stabPass, hc]]
      rw [show stabPass ds bk (u :: rest) live st order effs false
          = stabPass ds bk rest live st order effs false by simp [stabPass, hc]] at hupd
      exact ih live st order effs (fun x hx => hsub x (List.mem_cons_of_mem u hx)) hupd

theorem stabLoop_isSome (ds : List (String × Deriver)) (bk : List String) :
    ∀ (n : Nat) (st : StateMap) (live order : List String) (effs : List Effect),
    live.Nodup → live.length < n →
    (stabLoop ds bk n st live order effs).isSome := by
  intro n
  induction n with
  | zero =>
    intro st live order effs _ hlen
    exact absurd hlen (Nat.not_lt_zero _)
  | succ n ih =>
    intro st live order effs hnd hlen
    by_cases hemp : live.isEmpty = true
    · simp [stabLoop, hemp]
    · by_cases hupd : (stabPass ds bk live live st order effs false).2.2.2.2 = true
      · have hlt := stabPass_progress ds bk live live st order effs
          (fun x hx => hx) hupd
        have hnd' := stabPass_nodup ds bk live live st order effs false hnd
        have hrec := ih (stabPass ds bk live live st order effs false).1
          (stabPass ds bk live live st order effs false).2.1
          (stabPass ds bk live live st order effs false).2.2.1
          (stabPass ds bk live live st order effs false).2.2.2.1
          hnd' (Nat.lt_of_lt_of_le hlt (Nat.lt_succ_iff.mp hlen))
        simpa [stabLoop, hemp, hupd] using hrec
      · simp [stabLoop, hemp, hupd]

/-- Accurate-mode termination: for every graph and batch some fuel makes
`push_accurate` complete. -/
theorem pushAccurate_ex (ds : List (String × Deriver))
    (deps : List (String × List String)) (st : StateMap)
    (batch : List (String × Int)) :
    ∃ n, (pushAccurate n ds deps st batch).isSome := by
  obtain ⟨n, hn⟩ := closureAux_ex deps
    (batchKeys batch ++ (deps.map (fun p => p.2)).flatten)
    (fun p hp x hx =>
      List.mem_append.mpr (Or.inr (List.mem_flatten.mpr
        ⟨p.2, List.mem_map_of_mem _ hp, hx⟩)))
    [] (batchKeys batch)
    (fun x hx => List.mem_append.mpr (Or.inl hx))
  refine ⟨n, ?_⟩
  unfold pushAccurate
  split
  · next heq =>
    rw [heq] at hn
    exact Bool.noConfusion hn
  · next tbu heq =>
    have hstab := stabLoop_isSome ds (batchKeys batch) (tbu.length + 1)
      (assign st batch) tbu [] []
      (closureAux_nodup deps n [] (batchKeys batch) tbu heq List.nodup_nil)
      (Nat.lt_succ_self _)
    split
    · next heq2 =>
      rw [heq2] at hstab
      exact Bool.noConfusion hstab
    · next st1 live order1 effs1 heq2 =>
      split <;> simp

theorem charsLe_total : ∀ a b : List Char, charsLe a b = true ∨ charsLe b a = true := by
  intro a
  induction a with
  | nil => intro b; exact Or.inl rfl
  | cons c cs ih =>
    intro b
    cases b with
    | nil => exact Or.inr rfl
    | cons d ds =>
      rcases Nat.lt_trichotomy c.toNat d.toNat with h | h | h
      · exact Or.inl (by simp [charsLe, h])
      · have h1 : ¬ c.toNat < d.toNat := by omega
        have h2 : ¬ d.toNat < c.toNat := by omega
        rcases ih ds with hcd | hdc
        · exact Or.inl (by simp [charsLe, h1, h2, hcd])
        · exact Or.inr (by simp [charsLe, h1, h2, hdc])
      · exact Or.inr (by simp [charsLe, h])

theorem charsLe_trans : ∀ a b c : List Char,
    charsLe a b = true → charsLe b c = true → charsLe a c = true := by
  intro a
  induction a with
  | nil => intro b c _ _; rfl
  | cons x xs ih =>
    intro b c hab hbc
    cases b with
    | nil => exact absurd hab (by simp [charsLe])
    | cons y ys =>
      cases c with
      | nil => exact absurd hbc (by simp [charsLe])
      | cons z zs =>
        rcases Nat.lt_trichotomy x.toNat y.toNat with h1 | h1 | h1
        · rcases Nat.lt_trichotomy y.toNat z.toNat with h2 | h2 | h2
          · have h3 : x.toNat < z.toNat := Nat.lt_trans h1 h2
            simp [charsLe, h3]
          · have h3 : x.toNat < z.toNat := h2 ▸ h1
            simp [charsLe, h3]
          · have h4 : ¬ y.toNat < z.toNat := by omega
            exact absurd hbc (by simp [charsLe, h4, h2])
        · rcases Nat.lt_trichotomy y.toNat z.toNat with h2 | h2 | h2
          · have h3 : x.toNat < z.toNat := h1 ▸ h2
            simp [charsLe, h3]
          · have h3 : ¬ x.toNat < z.toNat := by omega
            have h4 : ¬ z.toNat < x.toNat := by omega
            have h5 : ¬ x.toNat < y.toNat := by omega
            have h6 : ¬ y.toNat < x.toNat := by omega
            have h7 : ¬ y.toNat < z.toNat := by omega
            have h8 : ¬ z.toNat < y.toNat := by omega
            have hab' : charsLe xs ys = true := by
              simpa [charsLe, h5, h6] using hab
            have hbc' : charsLe ys zs = true := by
              simpa [charsLe, h7, h8] using hbc
            simpa [charsLe, h3, h4] using ih ys zs hab' hbc'
          · have h4 : ¬ y.toNat < z.toNat := by omega
            exact absurd hbc (by simp [charsLe, h4, h2])
        · have h4 : ¬ x.toNat < y.toNat := by omega
          exact absurd hab (by simp [charsLe, h4, h1])

theorem strLe_total (a b : String) : strLe a b = true ∨ strLe b a = true :=
  charsLe_total a.data b.data

theorem strLe_trans {a b c : String} (h1 : strLe a b = true) (h2 : strLe b c = true) :
    strLe a c = true :=
  charsLe_trans a.data b.data c.data h1 h2

theorem insertSorted_perm (key : String → String) (a : String) (l : List String) :
    (insertSorted key a l).Perm (a :: l) := by
  induction l with
  | nil => exact List.Perm.refl _
  | cons b bs ih =>
    by_cases h : strLe (key b) (key a) = true
    · rw [insertSorted, if_pos h]
      exact (ih.cons b).trans (List.Perm.swap a b bs)
    · rw [insertSorted, if_neg h]

theorem sortByKey_aux_perm (key : String → String) :
    ∀ (l acc : List String),
    (l.foldl (fun acc a => insertSorted key a acc) acc).Perm (acc ++ l) := by
  intro l
  induction l with
  | nil => intro acc; simp
  | cons x xs ih =>
    intro acc
    have h1 := ih (insertSorted key x acc)
    have h2 : (insertSorted key x acc ++ xs).Perm (acc ++ x :: xs) := by
      refine ((insertSorted_perm key x acc).append_right xs).trans ?_
      exact List.perm_middle.symm
    simpa [List.foldl_cons] using h1.trans h2

theorem sortByKey_perm (key : String → String) (l : List String) :
    (sortByKey key l).Perm l := by
  simpa using sortByKey_aux_perm key l []

theorem mem_insertSorted {key : String → String} {a x : String} :
    ∀ {l : List String}, x ∈ insertSorted key a l ↔ x = a ∨ x ∈ l := by
  intro l
  induction l with
  | nil => simp [insertSorted]
  | cons b bs ih =>
    by_cases h : strLe (key b) (key a) = true
    · rw [insertSorted, if_pos h]
      simp only [List.mem_cons, ih]
      tauto
    · rw [insertSorted, if_neg h]
      simp only [List.mem_cons]

theorem insertSorted_pairwise (key : String → String) (a : String) :
    ∀ (l : List String), List.Pairwise (fun x y => strLe (key x) (key y) = true) l →
    List.Pairwise (fun x y => strLe (key x) (key y) = true) (insertSorted key a l) := by
  intro l
  induction l with
  | nil => intro _; simp [insertSorted]
  | cons b bs ih =>
    intro hp
    rcases List.pairwise_cons.mp hp with ⟨hb, hbs⟩
    by_cases h : strLe (key b) (key a) = true
    · rw [insertSorted, if_pos h]
      refine List.pairwise_cons.mpr ⟨?_, ih hbs⟩
      intro x hx
      rcases mem_insertSorted.mp hx with rfl | hx
      · exact h
      · exact hb x hx
    · rw [insertSorted, if_neg h]
      refine List.pairwise_cons.mpr ⟨?_, hp⟩
      intro x hx
      have hab : strLe (key a) (key b) = true := by
        rcases strLe_total (key b) (key a) with hba | hab
        · exact absurd hba h
        · exact hab
      rcases List.mem_cons.mp hx with rfl | hx
      · exact hab
      · exact strLe_trans hab (hb x hx)

theorem sortByKey_pairwise (key : String → String) (l : List String) :
    List.Pairwise (fun x y => strLe (key x) (key y) = true) (sortByKey key l) := by
  suffices h : ∀ (l acc : List String),
      List.Pairwise (fun x y => strLe (key x) (key y) = true) acc →
      List.Pairwise (fun x y => strLe (key x) (key y) = true)
        (l.foldl (fun acc a => insertSorted key a acc) acc) by
    exact h l [] (List.Pairwise.nil)
  intro l
  induction l with
  | nil => intro acc hacc; exact hacc
  | cons x xs ih =>
    intro acc hacc
    exact ih (insertSorted key x acc) (insertSorted_pairwise key x acc hacc)

theorem sortByKey_count_of_nodup (key : String → String) {l : List String}
    (hnd : l.Nodup) {k : String} (hk : k ∈ l) :
    (sortByKey key l).count k = 1 := by
  rw [(sortByKey_perm key l).count_eq]
  exact List.count_eq_one_of_mem hnd hk

theorem fallbackFold_order (ds : List (String × Deriver)) (bk : List String) :
    ∀ (l : List String) (st : StateMap) (order : List String) (effs : List Effect),
    (fallbackFold ds bk l st order effs).2.1 = order ++ l := by
  intro l
  induction l with
  | nil => intro st order effs; simp [fallbackFold]
  | cons u rest ih =>
    intro st order effs
    rw [fallbackFold]
    rw [ih]
    simp

theorem updateK_apply_no_deriver (ds : List (String × Deriver)) (bk : List String)
    (st : StateMap) (k k' : String) (h : lookupkv ds k' = none) :
    (updateK ds bk st k).1 k' = st k' := by
  unfold updateK
  cases hk : lookupkv ds k with
  | none => rfl
  | some d =>
    by_cases hr : d.is_request = true
    · simp only [hr, if_true]
      split
      · rfl
      · split <;> rfl
    · have hr' : d.is_request = false := by simpa using hr
      simp only [hr', Bool.false_eq_true, if_false]
      have hne : k' ≠ k := by
        intro he
        rw [he, hk] at h
        exact Option.noConfusion h
      simp [hne]

theorem pushFastAux_preserve (ds : List (String × Deriver))
    (deps : List (String × List String)) (bk : List String) (k' : String)
    (h : lookupkv ds k' = none) :
    ∀ (fuel : Nat) (st : StateMap) (q vis : List String) (effs : List Effect)
      (r : StateMap × List String × List Effect),
    pushFastAux ds deps bk fuel st q vis effs = some r → r.1 k' = st k' := by
  intro fuel
  induction fuel with
  | zero =>
    intro st q vis effs r hr
    cases q with
    | nil =>
      obtain rfl := Option.some.inj hr
      rfl
    | cons qh qt => exact Option.noConfusion hr
  | succ n ih =>
    intro st q vis effs r hr
    cases q with
    | nil =>
      obtain rfl := Option.some.inj hr
      rfl
    | cons qh qt =>
      have hrec := ih (updateK ds bk st qh).1 (qt ++ depsOf deps qh)
        (vis ++ [qh]) (effs ++ (updateK ds bk st qh).2) r hr
      rw [hrec, updateK_apply_no_deriver ds bk st qh k' h]

theorem stabPass_preserve (ds : List (String × Deriver)) (bk : List String)
    (k' : String) (h : lookupkv ds k' = none) :
    ∀ (tv live : List String) (st : StateMap) (order : List String)
      (effs : List Effect) (upd : Bool),
    (stabPass ds bk tv live st order effs upd).1 k' = st k' := by
  intro tv
  induction tv with
  | nil => intro live st order effs upd; rfl
  | cons u rest ih =>
    intro live st order effs upd
    by_cases hc : canUpdate ds live u = true
    · rw [stabPass, if_pos hc]
      rw [ih (live.erase u) (updateK ds bk st u).1 (order ++ [u])
        (effs ++ (updateK ds bk st u).2) true]
      exact updateK_apply_no_deriver ds bk st u k' h
    · rw [stabPass, if_neg hc]
      exact ih live st order effs upd

theorem stabLoop_preserve (ds : List (String × Deriver)) (bk : List String)
    (k' : String) (h : lookupkv ds k' = none) :
    ∀ (n : Nat) (st : StateMap) (live order : List String) (effs : List Effect)
      (r : StateMap × List String × List String × List Effect),
    stabLoop ds bk n st live order effs = some r → r.1 k' = st k' := by
  intro n
  induction n with
  | zero =>
    intro st live order effs r hr
    rw [stabLoop] at hr
    by_cases hemp : live.isEmpty = true
    · rw [if_pos hemp] at hr
      obtain rfl := Option.some.inj hr
      rfl
    · rw [if_neg hemp] at hr
      exact Option.noConfusion hr
  | succ n ih =>
    intro st live order effs r hr
    rw [stabLoop] at hr
    by_cases hemp : live.isEmpty = true
    · rw [if_pos hemp] at hr
      obtain rfl := Option.some.inj hr
      rfl
    · rw [if_neg hemp] at hr
      by_cases hupd : (stabPass ds bk live live st order effs false).2.2.2.2 = true
      · rw [if_pos hupd] at hr
        rw [ih _ _ _ _ r hr]
        exact stabPass_preserve ds bk k' h live live st order effs false
      · rw [if_neg hupd] at hr
        obtain rfl := Option.some.inj hr
        exact stabPass_preserve ds bk k' h live live st order effs false

theorem fallbackFold_preserve (ds : List (String × Deriver)) (bk : List String)
    (k' : String) (h : lookupkv ds k' = none) :
    ∀ (l : List String) (st : StateMap) (order : List String) (effs : List Effect),
    (fallbackFold ds bk l st order effs).1 k' = st k' := by
  intro l
  induction l with
  | nil => intro st order effs; rfl
  | cons u rest ih =>
    intro st order effs
    rw [fallbackFold]
    rw [ih (updateK ds bk st u).1 (order ++ [u]) (effs ++ (updateK ds bk st u).2)]
    exact updateK_apply_no_deriver ds bk st u k' h

theorem assign_apply_not_mem :
    ∀ (batch : List (String × Int)) (st : StateMap) (k : String),
    k ∉ batchKeys batch → assign st batch k = st k := by
  intro batch
  induction batch with
  | nil => intro st k _; rfl
  | cons kv rest ih =>
    intro st k hk
    have h1 : k ≠ kv.1 := by
      intro he
      exact hk (by simp [batchKeys, he])
    have h2 : k ∉ batchKeys rest := by
      intro hm
      exact hk (by simp [batchKeys] at hm ⊢; exact Or.inr hm)
    rw [show assign st (kv :: rest) = assign (fun k0 => if k0 = kv.1 then some kv.2 else st k0) rest from rfl]
    rw [ih _ k h2]
    simp [h1]

theorem assign_apply_mem :
    ∀ (batch : List (String × Int)) (st : StateMap) (k : String) (v : Int),
    (batchKeys batch).Nodup → (k, v) ∈ batch → assign st batch k = some v := by
  intro batch
  induction batch with
  | nil => intro st k v _ hm; cases hm
  | cons kv rest ih =>
    intro st k v hnd hm
    have hnd' : (batchKeys rest).Nodup := (List.nodup_cons.mp hnd).2
    rcases List.mem_cons.mp hm with rfl | hm'
    · have hk : k ∉ batchKeys rest := by
        have := (List.nodup_cons.mp hnd).1
        simpa [batchKeys] using this
      rw [show assign st ((k, v) :: rest) = assign (fun k0 => if k0 = k then some v else st k0) rest from rfl]
      rw [assign_apply_not_mem rest _ k hk]
      simp
    · exact ih _ k v hnd' hm'

theorem updateK_effect_keys (ds : List (String × Deriver)) (bk : List String)
    (st : StateMap) (k : String) :
    ∀ e ∈ (updateK ds bk st k).2, effectKey e = some k := by
  unfold updateK
  cases lookupkv ds k with
  | none => intro e he; cases he
  | some d =>
    by_cases hr : d.is_request = true
    · simp only [hr, if_true]
      by_cases hm : memB k bk = true
      · rw [if_pos hm]
        intro e he
        rcases List.mem_singleton.mp he with rfl
        rfl
      · rw [if_neg hm]
        cases d.func st with
        | some v =>
          intro e he
          rcases List.mem_cons.mp he with rfl | he'
          · rfl
          · rcases List.mem_singleton.mp he' with rfl
            rfl
        | none =>
          intro e he
          rcases List.mem_singleton.mp he with rfl
          rfl
    · have hr' : d.is_request = false := by simpa using hr
      simp only [hr', Bool.false_eq_true, if_false]
      intro e he
      rcases List.mem_singleton.mp he with rfl
      rfl

theorem pushFastAux_effects (ds : List (String × Deriver))
    (deps : List (String × List String)) (bk : List String) :
    ∀ (fuel : Nat) (st : StateMap) (q vis : List String) (effs : List Effect)
      (r : StateMap × List String × List Effect),
    pushFastAux ds deps bk fuel st q vis effs = some r →
    (∀ e ∈ effs, ∀ k0, effectKey e = some k0 → k0 ∈ vis) →
    ∀ e ∈ r.2.2, ∀ k0, effectKey e = some k0 → k0 ∈ r.2.1 := by
  intro fuel
  induction fuel with
  | zero =>
    intro st q vis effs r hr hyp
    cases q with
    | nil =>
      obtain rfl := Option.some.inj hr
      exact hyp
    | cons qh qt => exact Option.noConfusion hr
  | succ n ih =>
    intro st q vis effs r hr hyp
    cases q with
    | nil =>
      obtain rfl := Option.some.inj hr
      exact hyp
    | cons qh qt =>
      refine ih (updateK ds bk st qh).1 (qt ++ depsOf deps qh) (vis ++ [qh])
        (effs ++ (updateK ds bk st qh).2) r hr ?_
      intro e he k0 hk0
      rcases List.mem_append.mp he with he' | he'
      · exact List.mem_append.mpr (Or.inl (hyp e he' k0 hk0))
      · have := updateK_effect_keys ds bk st qh e he'
        rw [this] at hk0
        obtain rfl := Option.some.inj hk0
        exact List.mem_append.mpr (Or.inr (List.mem_singleton.mpr rfl))

theorem stabPass_effects (ds : List (String × Deriver)) (bk : List String) :
    ∀ (tv live : List String) (st : StateMap) (order : List String)
      (effs : List Effect) (upd : Bool),
    (∀ e ∈ effs, ∀ k0, effectKey e = some k0 → k0 ∈ order) →
    ∀ e ∈ (stabPass ds bk tv live st order effs upd).2.2.2.1, ∀ k0,
      effectKey e = some k0 → k0 ∈ (stabPass ds bk tv live st order effs upd).2.2.1 := by
  intro tv
  induction tv with
  | nil => intro live st order effs upd hyp; exact hyp
  | cons u rest ih =>
    intro live st order effs upd hyp
    by_cases hc : canUpdate ds live u = true
    · rw [stabPass, if_pos hc]
      refine ih (live.erase u) (updateK ds bk st u).1 (order ++ [u])
        (effs ++ (updateK ds bk st u).2) true ?_
      intro e he k0 hk0
      rcases List.mem_append.mp he with he' | he'
      · exact List.mem_append.mpr (Or.inl (hyp e he' k0 hk0))
      · have := updateK_effect_keys ds bk st u e he'
        rw [this] at hk0
        obtain rfl := Option.some.inj hk0
        exact List.mem_append.mpr (Or.inr (List.mem_singleton.mpr rfl))
    · rw [stabPass, if_neg hc]
      exact ih live st order effs upd hyp

theorem stabLoop_effects (ds : List (String × Deriver)) (bk : List String) :
    ∀ (n : Nat) (st : StateMap) (live order : List String) (effs : List Effect)
      (r : StateMap × List String × List String × List Effect),
    stabLoop ds bk n st live order effs = some r →
    (∀ e ∈ effs, ∀ k0, effectKey e = some k0 → k0 ∈ order) →
    ∀ e ∈ r.2.2.2, ∀ k0, effectKey e = some k0 → k0 ∈ r.2.2.1 := by
  intro n
  induction n with
  | zero =>
    intro st live order effs r hr hyp
    rw [stabLoop] at hr
    by_cases hemp : live.isEmpty = true
    · rw [if_pos hemp] at hr
      obtain rfl := Option.some.inj hr
      exact hyp
    · rw [if_neg hemp] at hr
      exact Option.noConfusion hr
  | succ n ih =>
    intro st live order effs r hr hyp
    rw [stabLoop] at hr
    by_cases hemp : live.isEmpty = true
    · rw [if_pos hemp] at hr
      obtain rfl := Option.some.inj hr
      exact hyp
    · rw [if_neg hemp] at hr
      by_cases hupd : (stabPass ds bk live live st order effs false).2.2.2.2 = true
      · rw [if_pos hupd] at hr
        exact ih _ _ _ _ r hr (stabPass_effects ds bk live live st order effs false hyp)
      · rw [if_neg hupd] at hr
        obtain rfl := Option.some.inj hr
        exact stabPass_effects ds bk live live st order effs false hyp

theorem fallbackFold_effects (ds : List (String × Deriver)) (bk : List String) :
    ∀ (l : List String) (st : StateMap) (order : List String) (effs : List Effect),
    (∀ e ∈ effs, ∀ k0, effectKey e = some k0 → k0 ∈ order) →
    ∀ e ∈ (fallbackFold ds bk l st order effs).2.2, ∀ k0,
      effectKey e = some k0 → k0 ∈ (fallbackFold ds bk l st order effs).2.1 := by
  intro l
  induction l with
  | nil => intro st order effs hyp; exact hyp
  | cons u rest ih =>
    intro st order effs hyp
    rw [fallbackFold]
    refine ih (updateK ds bk st u).1 (order ++ [u]) (effs ++ (updateK ds bk st u).2) ?_
    intro e he k0 hk0
    rcases List.mem_append.mp he with he' | he'
    · exact List.mem_append.mpr (Or.inl (hyp e he' k0 hk0))
    · have := updateK_effect_keys ds bk st u e he'
      rw [this] at hk0
      obtain rfl := Option.some.inj hk0
      exact List.mem_append.mpr (Or.inr (List.mem_singleton.mpr rfl))

theorem pushAccurate_effects (n : Nat) (ds : List (String × Deriver))
    (deps : List (String × List String)) (st : StateMap)
    (batch : List (String × Int)) (r : StateMap × List String × List Effect)
    (hr : pushAccurate n ds deps st batch = some r) :
    ∀ e ∈ r.2.2, ∀ k0, effectKey e = some k0 → k0 ∈ r.2.1 := by
  unfold pushAccurate at hr
  split at hr
  · exact Option.noConfusion hr
  · next tbu heq =>
    split at hr
    · exact Option.noConfusion hr
    · next st1 live order1 effs1 heq2 =>
      by_cases hemp : live.isEmpty = true
      · rw [if_pos hemp] at hr
        obtain rfl := Option.some.inj hr
        exact stabLoop_effects ds (batchKeys batch) (tbu.length + 1)
          (assign st batch) tbu [] [] _ heq2 (fun e he => absurd he (List.not_mem_nil e))
      · rw [if_neg hemp] at hr
        obtain rfl := Option.some.inj hr
        exact fallbackFold_effects ds (batchKeys batch)
          (sortByKey (orderKey ds) live) st1 order1 effs1
          (stabLoop_effects ds (batchKeys batch) (tbu.length + 1)
            (assign st batch) tbu [] [] _ heq2 (fun e he => absurd he (List.not_mem_nil e)))

theorem pushFast_effects (fuel : Nat) (ds : List (String × Deriver))
    (deps : List (String × List String)) (st : StateMap)
    (batch : List (String × Int)) (r : StateMap × List String × List Effect)
    (hr : pushFast fuel ds deps st batch = some r) :
    ∀ e ∈ r.2.2, ∀ k0, effectKey e = some k0 → k0 ∈ r.2.1 := by
  exact pushFastAux_effects ds deps (batchKeys batch) fuel (assign st batch)
    (batchKeys batch) [] [] r hr (fun e he => absurd he (List.not_mem_nil e))

theorem pushFast_no_deriver (fuel : Nat) (ds : List (String × Deriver))
    (deps : List (String × List String)) (st : StateMap)
    (batch : List (String × Int)) (k' : String)
    (r : StateMap × List String × List Effect)
    (hr : pushFast fuel ds deps st batch = some r)
    (h : lookupkv ds k' = none) : r.1 k' = assign st batch k' := by
  exact pushFastAux_preserve ds deps (batchKeys batch) k' h fuel (assign st batch)
    (batchKeys batch) [] [] r hr

theorem pushAccurate_no_deriver (n : Nat) (ds : List (String × Deriver))
    (deps : List (String × List String)) (st : StateMap)
    (batch : List (String × Int)) (k' : String)
    (r : StateMap × List String × List Effect)
    (hr : pushAccurate n ds deps st batch = some r)
    (h : lookupkv ds k' = none) : r.1 k' = assign st batch k' := by
  unfold pushAccurate at hr
  split at hr
  · exact Option.noConfusion hr
  · next tbu heq =>
    split at hr
    · exact Option.noConfusion hr
    · next st1 live order1 effs1 heq2 =>
      by_cases hemp : live.isEmpty = true
      · rw [if_pos hemp] at hr
        obtain rfl := Option.some.inj hr
        exact stabLoop_preserve ds (batchKeys batch) k' h (tbu.length + 1)
          (assign st batch) tbu [] [] _ heq2
      · rw [if_neg hemp] at hr
        obtain rfl := Option.some.inj hr
        rw [fallbackFold_preserve ds (batchKeys batch) k' h
          (sortByKey (orderKey ds) live) st1 order1 effs1]
        exact stabLoop_preserve ds (batchKeys batch) k' h (tbu.length + 1)
          (assign st batch) tbu [] [] _ heq2

theorem pushAccurate_eq_of (fuel : Nat) (ds : List (String × Deriver))
    (deps : List (String × List String)) (st : StateMap)
    (batch : List (String × Int)) (tbu : List String) (st1 : StateMap)
    (live order1 : List String) (effs1 : List Effect)
    (h1 : closureAux deps fuel [] (batchKeys batch) = some tbu)
    (h2 : stabLoop ds (batchKeys batch) (tbu.length + 1) (assign st batch) tbu [] []
      = some (st1, live, order1, effs1)) :
    pushAccurate fuel ds deps st batch =
      if live.isEmpty then some (st1, order1, effs1)
      else some (fallbackFold ds (batchKeys batch)
        (sortByKey (orderKey ds) live) st1 order1 effs1) := by
  unfold pushAccurate
  split
  · next heq =>
    rw [h1] at heq
    exact Option.noConfusion heq
  · next tbu' heq =>
    rw [h1] at heq
    obtain rfl : tbu = tbu' := Option.some.inj heq
    split
    · next heq2 =>
      rw [h2] at heq2
      exact Option.noConfusion heq2
    · next st1' live' order1' effs1' heq2 =>
      rw [h2] at heq2
      obtain ⟨rfl, rfl, rfl, rfl⟩ :
          st1 = st1' ∧ live = live' ∧ order1 = order1' ∧ effs1 = effs1' := by
        simpa using Option.some.inj heq2
      rfl

theorem lookupkv_map_update {α : Type} (l : List (String × α)) (name k : String)
    (f : α → α) :
    lookupkv (l.map (fun kv => if kv.1 = name then (kv.1, f kv.2) else kv)) k =
    if k = name then (lookupkv l k).map f else lookupkv l k := by
  induction l with
  | nil => by_cases h : k = name <;> simp [lookupkv, h]
  | cons kv rest ih =>
    by_cases h1 : kv.1 = name
    · by_cases h2 : kv.1 = k
      · unfold lookupkv
        rw [List.map_cons, if_pos h1]
        rw [List.find?_cons_of_pos _ (by simpa using h2),
          List.find?_cons_of_pos _ (by simpa using h2)]
        have hk : k = name := h2 ▸ h1
        simp [hk]
      · unfold lookupkv
        rw [List.map_cons, if_pos h1]
        rw [List.find?_cons_of_neg _ (by simpa using h2),
          List.find?_cons_of_neg _ (by simpa using h2)]
        exact ih
    · by_cases h2 : kv.1 = k
      · unfold lookupkv
        rw [List.map_cons, if_neg h1]
        rw [List.find?_cons_of_pos _ (by simpa using h2),
          List.find?_cons_of_pos _ (by simpa using h2)]
        have hk : ¬(k = name) := fun he => h1 (h2.symm ▸ he)
        simp [hk]
      · unfold lookupkv
        rw [List.map_cons, if_neg h1]
        rw [List.find?_cons_of_neg _ (by simpa using h2),
          List.find?_cons_of_neg _ (by simpa using h2)]
        exact ih

theorem lookupkv_append_of_none {α : Type} (l₁ l₂ : List (String × α)) (k : String)
    (h : lookupkv l₁ k = none) : lookupkv (l₁ ++ l₂) k = lookupkv l₂ k := by
  induction l₁ with
  | nil => rfl
  | cons kv rest ih =>
    by_cases h2 : kv.1 = k
    · exfalso
      unfold lookupkv at h
      rw [List.find?_cons_of_pos _ (by simpa using h2)] at h
      exact Option.noConfusion h
    · unfold lookupkv at h ⊢
      rw [List.find?_cons_of_neg _ (by simpa using h2)] at h
      rw [List.cons_append, List.find?_cons_of_neg _ (by simpa using h2)]
      exact ih h

theorem watchersOf_unwatch (g : StateGraph) (name k : String) (w : Nat) :
    watchersOf (unwatch g name w) k =
    if k = name then (watchersOf g name).filter (fun x => x ≠ w)
    else watchersOf g k := by
  show (lookupkv (g.watchers.map _) k).getD [] = _
  rw [lookupkv_map_update g.watchers name k (fun l => l.filter (fun x => x ≠ w))]
  by_cases h : k = name
  · rw [if_pos h, if_pos h, h]
    unfold watchersOf
    cases hc : lookupkv g.watchers name with
    | none => rfl
    | some l => rfl
  · rw [if_neg h, if_neg h]
    rfl

theorem watchersOf_watch (g : StateGraph) (name : String) (w : Nat) :
    watchersOf (watch g name w) name = watchersOf g name ++ [w] := by
  unfold watch watchersOf
  by_cases h : (lookupkv g.watchers name).isSome = true
  · rw [if_pos h]
    show (lookupkv (g.watchers.map _) name).getD [] = _
    rw [lookupkv_map_update g.watchers name name (fun l => l ++ [w]), if_pos rfl]
    obtain ⟨l, hl⟩ := Option.isSome_iff_exists.mp h
    rw [hl]
    rfl
  · rw [if_neg h]
    have hnone : lookupkv g.watchers name = none := by
      cases hc : lookupkv g.watchers name with
      | none => rfl
      | some l => rw [hc] at h; exact absurd rfl h
    show (lookupkv (g.watchers ++ [(name, [w])]) name).getD [] = _
    rw [lookupkv_append_of_none g.watchers [(name, [w])] name hnone]
    rw [hnone]
    simp [lookupkv]

theorem filter_ne_idem (l : List Nat) (w : Nat) :
    (l.filter (fun x => x ≠ w)).filter (fun x => x ≠ w) = l.filter (fun x => x ≠ w) := by
  induction l with
  | nil => rfl
  | cons a rest ih =>
    by_cases h : a = w
    · simp [List.filter_cons, h, ih]
    · simp [List.filter_cons, h, ih]

theorem not_mem_filter_ne (l : List Nat) (w : Nat) :
    w ∉ l.filter (fun x => x ≠ w) := by
  intro hm
  have := List.of_mem_filter hm
  simp at this

theorem unwatch_idem (g : StateGraph) (name : String) (w : Nat) :
    unwatch (unwatch g name w) name w = unwatch g name w := by
  have hmap : ((g.watchers.map (fun kv =>
        if kv.1 = name then (kv.1, kv.2.filter (fun x => x ≠ w)) else kv)).map (fun kv =>
        if kv.1 = name then (kv.1, kv.2.filter (fun x => x ≠ w)) else kv)) =
      g.watchers.map (fun kv =>
        if kv.1 = name then (kv.1, kv.2.filter (fun x => x ≠ w)) else kv) := by
    rw [List.map_map]
    apply List.map_congr_left
    intro kv _
    by_cases h : kv.1 = name
    · simp only [Function.comp_apply, if_pos h, if_pos h, filter_ne_idem]
    · simp only [Function.comp_apply, if_neg h, if_neg h]
  exact congrArg (fun wl => { g with watchers := wl }) hmap

theorem unwatchAll_idem (g : StateGraph) (w : Nat) :
    unwatchAll (unwatchAll g w) w = unwatchAll g w := by
  exact congrArg (fun wl => { g with global_watchers := wl })
    (filter_ne_idem g.global_watchers w)

theorem runProbe_eq (ks : List String) : ∀ acc, runProbe ks acc = acc ++ ks := by
  induction ks with
  | nil => intro acc; simp [runProbe]
  | cons k ks ih =>
    intro acc
    rw [runProbe, ih]
    simp

theorem throttleRun_invariant :
    ∀ (evs : List TEvent) (s : ThrottleState) (c o : Nat),
    o = (if s.in_progress then 1 else 0) →
    (throttleRun (s, c, o) evs).2.2 =
      (if (throttleRun (s, c, o) evs).1.in_progress then 1 else 0) := by
  intro evs
  induction evs with
  | nil => intro s c o h; exact h
  | cons e rest ih =>
    intro s c o h
    obtain ⟨sip⟩ := s
    cases e with
    | invoke y =>
      cases sip with
      | true =>
        rw [show throttleRun ({ in_progress := true }, c, o) (TEvent.invoke y :: rest)
            = throttleRun ({ in_progress := true }, c + 0, o) rest by
          simp [throttleRun, throttleStep]]
        exact ih _ _ _ h
      | false =>
        have ho : o = 0 := by simpa using h
        cases y with
        | true =>
          rw [show throttleRun ({ in_progress := false }, c, o) (TEvent.invoke true :: rest)
              = throttleRun ({ in_progress := true }, c + 1, o + 1) rest by
            simp [throttleRun, throttleStep]]
          exact ih _ _ _ (by simp [ho])
        | false =>
          rw [show throttleRun ({ in_progress := false }, c, o) (TEvent.invoke false :: rest)
              = throttleRun ({ in_progress := false }, c + 1, o) rest by
            simp [throttleRun, throttleStep]]
          exact ih _ _ _ h
    | settleEv b =>
      rw [show throttleRun ({ in_progress := sip }, c, o) (TEvent.settleEv b :: rest)
          = throttleRun ({ in_progress := false }, c + 0, o - 1) rest by
        simp [throttleRun, throttleStep]]
      refine ih _ _ _ ?_
      cases sip with
      | true => simpa using congrArg (fun n => n - 1) h
      | false => simpa using congrArg (fun n => n - 1) h

/-! ### The claims -/

/-- C1: for a non-request deriver `B` whose only dependency is `A`,
pushing `{A: x}` in fast or accurate mode leaves `state.B` equal to `B`'s
compute function applied to the state carrying `A = x`, and the returned
update list contains `B`; in the concrete example graph
(`defaults: {A: 0}`, `derivers: {B: state => state.A + 5}`) `state.B`
is `5` after construction and `15` after `push({A: 10})`, with `B` in
the returned list, in both modes. -/
theorem C1_single_dependency_propagation :
    (∀ (f : StateMap → Option Int) (st0 : StateMap) (x : Int),
      (pushFast 4 [(("B" : String), { params := ["A"], func := f })]
          (buildDeps [(("B" : String), { params := ["A"], func := f })])
          st0 [(("A" : String), x)]).map (fun r => r.2.1) = some ["A", "B"]
      ∧ (pushFast 4 [(("B" : String), { params := ["A"], func := f })]
          (buildDeps [(("B" : String), { params := ["A"], func := f })])
          st0 [(("A" : String), x)]).map (fun r => r.1 ("B"))
        = some (f (assign st0 [("A", x)]))
      ∧ (pushAccurate 4 [(("B" : String), { params := ["A"], func := f })]
          (buildDeps [(("B" : String), { params := ["A"], func := f })])
          st0 [(("A" : String), x)]).map (fun r => r.2.1) = some ["A", "B"]
      ∧ (pushAccurate 4 [(("B" : String), { params := ["A"], func := f })]
          (buildDeps [(("B" : String), { params := ["A"], func := f })])
          st0 [(("A" : String), x)]).map (fun r => r.1 ("B"))
        = some (f (assign st0 [("A", x)])))
  ∧ (mkGraph 4 [("B", exampleDeriverB)] [] (some [("A", 0)])).map
      (fun g => g.state ("B")) = some (some 5)
  ∧ ((mkGraph 4 [("B", exampleDeriverB)] [] (some [("A", 0)])).bind
      (fun g => pushGraph 4 g [("A", 10)] none)).map
      (fun r => r.1.state ("B")) = some (some 15)
  ∧ ((mkGraph 4 [("B", exampleDeriverB)] [] (some [("A", 0)])).bind
      (fun g => pushGraph 4 g [("A", 10)] none)).map
      (fun r => r.2.1) = some ["A", "B"]
  ∧ ((mkGraph 4 [("B", exampleDeriverB)] [] (some [("A", 0)])).bind
      (fun g => pushGraph 4 g [("A", 10)] (some Mode.fast))).map
      (fun r => r.1.state ("B")) = some (some 15)
  ∧ ((mkGraph 4 [("B", exampleDeriverB)] [] (some [("A", 0)])).bind
      (fun g => pushGraph 4 g [("A", 10)] (some Mode.fast))).map
      (fun r => r.2.1) = some ["A", "B"] :=
  ⟨fun _ _ _ => ⟨rfl, rfl, rfl, rfl⟩, rfl, rfl, rfl, rfl, rfl⟩

/-- C2: for a chain `A → B → C` (`B` depends only on `A`, `C` only on
`B`), an accurate push of `{A: x}` recomputes `B` before `C`, and `C`'s
recomputation reads `B`'s newly computed value: the final `state.C` is
`C`'s compute applied to the state that carries `B`'s new value
`f (assign st0 {A: x})`. -/
theorem C2_chain_accurate_propagation :
    ∀ (f h : StateMap → Option Int) (st0 : StateMap) (x : Int),
    (pushAccurate 6
        [(("B" : String), { params := ["A"], func := f }),
         (("C" : String), { params := ["B"], func := h })]
        (buildDeps [(("B" : String), { params := ["A"], func := f }),
         (("C" : String), { params := ["B"], func := h })])
        st0 [(("A" : String), x)]).map (fun r => r.2.1) = some ["A", "B", "C"]
    ∧ (pushAccurate 6
        [(("B" : String), { params := ["A"], func := f }),
         (("C" : String), { params := ["B"], func := h })]
        (buildDeps [(("B" : String), { params := ["A"], func := f }),
         (("C" : String), { params := ["B"], func := h })])
        st0 [(("A" : String), x)]).map (fun r => r.1 ("B"))
      = some (f (assign st0 [("A", x)]))
    ∧ (pushAccurate 6
        [(("B" : String), { params := ["A"], func := f }),
         (("C" : String), { params := ["B"], func := h })]
        (buildDeps [(("B" : String), { params := ["A"], func := f }),
         (("C" : String), { params := ["B"], func := h })])
        st0 [(("A" : String), x)]).map (fun r => r.1 ("C"))
      = some (h (fun k => if k = ("B" : String) then f (assign st0 [("A", x)])
          else (assign st0 [("A", x)]) k)) :=
  fun _ _ _ _ => ⟨rfl, rfl, rfl⟩

/-- C3: accurate-mode push terminates for every dependency graph
(sufficient fuel always exists); when the stabilization loop stalls with
pending keys left, those keys are each recomputed exactly once, in the
order given by sorting them by the deriver tie-break string (falling
back to the key itself), appended after the stabilization-phase keys;
in the two-cycle example `X ↔ Y`, `push({X: 1})` updates exactly `X`
then `Y`, once each, in tie-break order. -/
theorem C3_accurate_cycle_termination :
    (∀ (ds : List (String × Deriver)) (deps : List (String × List String))
        (st : StateMap) (batch : List (String × Int)),
      ∃ n, (pushAccurate n ds deps st batch).isSome)
  ∧ (∀ (fuel : Nat) (ds : List (String × Deriver))
        (deps : List (String × List String)) (st : StateMap)
        (batch : List (String × Int)) (tbu : List String) (st1 : StateMap)
        (live order1 : List String) (effs1 : List Effect),
      closureAux deps fuel [] (batchKeys batch) = some tbu →
      stabLoop ds (batchKeys batch) (tbu.length + 1) (assign st batch) tbu [] []
        = some (st1, live, order1, effs1) →
      live ≠ [] →
      (pushAccurate fuel ds deps st batch).map (fun r => r.2.1)
        = some (order1 ++ sortByKey (orderKey ds) live)
      ∧ (sortByKey (orderKey ds) live).Perm live
      ∧ List.Pairwise
          (fun a b => strLe (orderKey ds a) (orderKey ds b) = true)
          (sortByKey (orderKey ds) live)
      ∧ (live.Nodup → ∀ k ∈ live, (sortByKey (orderKey ds) live).count k = 1))
  ∧ (pushAccurate 4 cycleGraph.derivers cycleGraph.deps cycleGraph.state
      [(("X" : String), 1)]).map (fun r => r.2.1) = some ["X", "Y"] := by
  refine ⟨pushAccurate_ex, ?_, rfl⟩
  intro fuel ds deps st batch tbu st1 live order1 effs1 h1 h2 hne
  refine ⟨?_, sortByKey_perm _ _, sortByKey_pairwise _ _, ?_⟩
  · rw [pushAccurate_eq_of fuel ds deps st batch tbu st1 live order1 effs1 h1 h2]
    rw [if_neg (by simpa [List.isEmpty_iff] using hne)]
    simp [fallbackFold_order]
  · intro hnd k hk
    exact sortByKey_count_of_nodup (orderKey ds) hnd hk

/-- C3 witness: the general conjuncts instantiated on the concrete
`X ↔ Y` cycle graph. -/
theorem C3_accurate_cycle_termination_witness :
    (pushAccurate 4 cycleGraph.derivers cycleGraph.deps cycleGraph.state
      [(("X" : String), 1)]).map (fun r => r.2.1)
      = some ([] ++ sortByKey (orderKey cycleGraph.derivers) ["X", "Y"])
    ∧ (sortByKey (orderKey cycleGraph.derivers) ["X", "Y"]).Perm ["X", "Y"] := by
  have h := C3_accurate_cycle_termination.2.1 4 cycleGraph.derivers cycleGraph.deps
    cycleGraph.state [(("X" : String), 1)] ["X", "Y"]
    (assign cycleGraph.state [(("X" : String), 1)]) ["X", "Y"] [] []
    rfl rfl (by simp)
  exact ⟨h.1, h.2.1⟩

/-- C4 counterexample: a probed function that reads the key `a` twice
yields a params list in which `a` occurs twice — the extractor does not
deduplicate, contradicting the claim that each key appears at most once. -/
theorem C4_duplicate_access_counterexample :
    extractParams { accesses := ["a", "a"], ret := none } = ["a", "a"]
    ∧ extractParamsSpec { accesses := ["a", "a"], ret := none } = ["a"]
    ∧ ¬ ((extractParams { accesses := ["a", "a"], ret := none }).count ("a") ≤ 1) := by
  exact ⟨rfl, rfl, by decide⟩

/-- C4 (amended): the probed function is invoked once against the
reporter, every top-level read returns the undefined placeholder, the
probe's return value is discarded, and the resulting params list records
EVERY access in the order performed — a key read several times appears
several times (no deduplication). -/
theorem C4_probe_records_accesses :
    (∀ fn : ProbeFn, extractParams fn = fn.accesses)
  ∧ (∀ (a : List String) (r r' : Option Int),
      extractParams { accesses := a, ret := r }
        = extractParams { accesses := a, ret := r' }) := by
  constructor
  · intro fn
    unfold extractParams
    rw [runProbe_eq]
    simp
  · intro a r r'
    rfl

/-- C5: during propagation, a key with a request-deriver is handled by
cases: if the key is in the pushed batch only its change notification is
dispatched and the async function is not invoked (state untouched, no
invocation effect); otherwise the async function is invoked once, and a
returned pending computation is tracked (a `requested` effect) while a
`null` return ends the key's handling for this pass; the resolution of a
tracked computation issues a new push of `{key: value}` with the default
mode. -/
theorem C5_request_update_dispatch :
    (∀ (ds : List (String × Deriver)) (bk : List String) (st : StateMap)
        (k : String) (d : Deriver),
      lookupkv ds k = some d → d.is_request = true →
      (memB k bk = true → updateK ds bk st k = (st, [Effect.notified k]))
      ∧ (memB k bk = false → ∀ v, d.func st = some v →
          updateK ds bk st k = (st, [Effect.invoked k, Effect.requested k]))
      ∧ (memB k bk = false → d.func st = none →
          updateK ds bk st k = (st, [Effect.invoked k])))
  ∧ (∀ (fuel : Nat) (g : StateGraph) (k : String) (v : Int),
      settle fuel g k (Except.ok v) = pushGraph fuel g [(k, v)] none) := by
  constructor
  · intro ds bk st k d hl hreq
    refine ⟨?_, ?_, ?_⟩
    · intro hm
      unfold updateK
      rw [hl]
      simp [hreq, hm]
    · intro hm v hv
      unfold updateK
      rw [hl]
      simp [hreq, hm, hv]
    · intro hm hv
      unfold updateK
      rw [hl]
      simp [hreq, hm, hv]
  · intro fuel g k v
    rfl

/-- C5 witness: the batch-arrival and the fresh-invocation cases on the
concrete request deriver `R`. -/
theorem C5_request_update_dispatch_witness :
    updateK [(("R" : String), requestDeriverR)] ["R"] (fun _ => none) ("R")
      = ((fun _ => none : StateMap), [Effect.notified ("R")])
    ∧ updateK [(("R" : String), requestDeriverR)] ["A"] (fun _ => none) ("R")
      = ((fun _ => none : StateMap), [Effect.invoked ("R"), Effect.requested ("R")]) := by
  have h1 := C5_request_update_dispatch.1 [(("R" : String), requestDeriverR)]
    ["R"] (fun _ => none) ("R") requestDeriverR rfl rfl
  have h2 := C5_request_update_dispatch.1 [(("R" : String), requestDeriverR)]
    ["A"] (fun _ => none) ("R") requestDeriverR rfl rfl
  exact ⟨h1.1 rfl, h2.2.1 rfl 0 rfl⟩

/-- C6: a throttled request has at most one outstanding pending
computation: the outstanding count always equals the in-flight flag,
an invocation while in flight returns without calling the underlying
request, settlement (success or failure) always clears the flag, and two
back-to-back triggering invocations perform exactly one underlying call. -/
theorem C6_throttle_single_flight :
    (∀ evs : List TEvent,
      (throttleRun throttleInit evs).2.2
        = (if (throttleRun throttleInit evs).1.in_progress then 1 else 0))
  ∧ (∀ evs : List TEvent, (throttleRun throttleInit evs).2.2 ≤ 1)
  ∧ (∀ (s : ThrottleState) (c o : Nat) (y : Bool), s.in_progress = true →
      throttleRun (s, c, o) [TEvent.invoke y] = (s, c, o))
  ∧ (∀ (s : ThrottleState) (b : Bool),
      (throttleStep s (TEvent.settleEv b)).1.in_progress = false)
  ∧ throttleRun throttleInit [TEvent.invoke true, TEvent.invoke true]
      = ({ in_progress := true }, 1, 1)
  ∧ throttleRun throttleInit
      [TEvent.invoke true, TEvent.settleEv false, TEvent.invoke true]
      = ({ in_progress := true }, 2, 1) := by
  refine ⟨?_, ?_, ?_, ?_, rfl, rfl⟩
  · intro evs
    exact throttleRun_invariant evs { in_progress := false } 0 0 rfl
  · intro evs
    rw [show throttleInit = ({ in_progress := false }, 0, 0) from rfl,
      throttleRun_invariant evs { in_progress := false } 0 0 rfl]
    split
    · exact Nat.le_refl 1
    · exact Nat.zero_le 1
  · intro s c o y h
    obtain ⟨sip⟩ := s
    have : sip = true := h
    subst this
    simp [throttleRun, throttleStep]
  · intro s b
    rfl

/-- C6 witness: an invocation while in flight is a no-op on the closure
state, the call count and the outstanding count. -/
theorem C6_throttle_single_flight_witness :
    throttleRun ({ in_progress := true }, 5, 1) [TEvent.invoke true]
      = ({ in_progress := true }, 5, 1) :=
  C6_throttle_single_flight.2.2.1 { in_progress := true } 5 1 true rfl

/-- C7: a rejected pending computation is caught at the settlement
boundary and only logged: settlement of a failure returns the graph
unchanged, recomputes nothing, dispatches no notification, and is a
total function (no exception reaches the pushing caller); in the
concrete request scenario the triggering push itself returns normally
with the request tracked and no value written at `R`. -/
theorem C7_request_failure_is_logged :
    (∀ (fuel : Nat) (g : StateGraph) (k msg : String),
      settle fuel g k (Except.error msg) = some (g, [], [Effect.logged]))
  ∧ (∀ k0 : String, ([Effect.logged].count (Effect.notified k0)) = 0)
  ∧ (pushGraph 4 requestGraph [(("A" : String), 1)] none).map (fun r => r.2.2)
      = some [Effect.invoked ("R"), Effect.requested ("R")]
  ∧ (pushGraph 4 requestGraph [(("A" : String), 1)] none).map
      (fun r => r.1.state ("R")) = some none := by
  exact ⟨fun _ _ _ _ => rfl, fun _ => rfl, rfl, rfl⟩

/-- C8: `push(batch, mode)` writes the batch's raw values into the state
(a batch key with no deriver retains its pushed raw value when the call
returns), an unspecified mode falls back to the process default, every
key an effect was dispatched for is in the returned list, and the
accurate-mode returned list is the stabilization-phase keys followed by
the cycle-fallback keys, in computation order. -/
theorem C8_push_applies_batch_and_reports_updates :
    (∀ (fuel : Nat) (g : StateGraph) (batch : List (String × Int)),
      pushGraph fuel g batch none = pushGraph fuel g batch (some g.push_default_mode))
  ∧ (∀ (fuel : Nat) (ds : List (String × Deriver))
        (deps : List (String × List String)) (st : StateMap)
        (batch : List (String × Int)),
      (pushAccurate fuel ds deps st batch).map (fun r => r.2.1)
        = (accuratePhases fuel ds deps st batch).map (fun p => p.1 ++ p.2))
  ∧ (∀ (fuel : Nat) (g : StateGraph) (batch : List (String × Int))
        (mode : Option Mode) (r : StateGraph × List String × List Effect)
        (k : String) (v : Int),
      pushGraph fuel g batch mode = some r →
      lookupkv g.derivers k = none → (k, v) ∈ batch → (batchKeys batch).Nodup →
      r.1.state k = some v)
  ∧ (∀ (fuel : Nat) (g : StateGraph) (batch : List (String × Int))
        (mode : Option Mode) (r : StateGraph × List String × List Effect),
      pushGraph fuel g batch mode = some r →
      ∀ e ∈ r.2.2, ∀ k0, effectKey e = some k0 → k0 ∈ r.2.1) := by
  refine ⟨fun _ _ _ => rfl, ?_, ?_, ?_⟩
  · intro fuel ds deps st batch
    unfold pushAccurate accuratePhases
    split
    · rfl
    · split
      · rfl
      · split <;> simp [fallbackFold_order]
  · intro fuel g batch mode r k v hr hld hmem hnd
    unfold pushGraph at hr
    split at hr
    · obtain ⟨inner, hin, heq⟩ := Option.map_eq_some'.mp hr
      cases heq
      show inner.1 k = some v
      rw [pushFast_no_deriver fuel g.derivers g.deps g.state batch k inner hin hld]
      exact assign_apply_mem batch g.state k v hnd hmem
    · obtain ⟨inner, hin, heq⟩ := Option.map_eq_some'.mp hr
      cases heq
      show inner.1 k = some v
      rw [pushAccurate_no_deriver fuel g.derivers g.deps g.state batch k inner hin hld]
      exact assign_apply_mem batch g.state k v hnd hmem
  · intro fuel g batch mode r hr
    unfold pushGraph at hr
    split at hr
    · obtain ⟨inner, hin, heq⟩ := Option.map_eq_some'.mp hr
      cases heq
      exact pushFast_effects fuel g.derivers g.deps g.state batch inner hin
    · obtain ⟨inner, hin, heq⟩ := Option.map_eq_some'.mp hr
      cases heq
      exact pushAccurate_effects fuel g.derivers g.deps g.state batch inner hin

/-- C8 witness: pushing `{A: 5}` (a key with no deriver) writes the raw
value `5` into the state. -/
theorem C8_push_applies_batch_witness :
    (pushGraph 4 requestGraph [(("A" : String), 5)] none).map
      (fun r => r.1.state ("A")) = some (some 5) := by
  obtain ⟨r, hr⟩ : ∃ r, pushGraph 4 requestGraph [(("A" : String), 5)] none = some r :=
    ⟨_, rfl⟩
  rw [hr]
  have h := C8_push_applies_batch_and_reports_updates.2.2.1 4 requestGraph
    [(("A" : String), 5)] none r ("A") 5 hr rfl (List.mem_singleton.mpr rfl)
    (by simp [batchKeys])
  rw [show Option.map (fun r => r.1.state ("A")) (some r)
      = some (r.1.state ("A")) from rfl, h]

/-- C9: `watch` appends the callback, and the closures returned by
`watch` / `watch_all` are idempotent unsubscribers: unsubscription
filters exactly that callback out of the corresponding list, leaves
other keys and other callbacks untouched, and running it twice equals
running it once. -/
theorem C9_unsubscribe_closures :
    (∀ (g : StateGraph) (name : String) (w : Nat),
      watchersOf (watch g name w) name = watchersOf g name ++ [w])
  ∧ (∀ (g : StateGraph) (name : String) (w : Nat),
      watchersOf (unwatch g name w) name
        = (watchersOf g name).filter (fun x => x ≠ w))
  ∧ (∀ (g : StateGraph) (name k : String) (w : Nat), k ≠ name →
      watchersOf (unwatch g name w) k = watchersOf g k)
  ∧ (∀ (g : StateGraph) (name : String) (w : Nat),
      unwatch (unwatch g name w) name w = unwatch g name w)
  ∧ (∀ (g : StateGraph) (name : String) (w v : Nat), v ≠ w →
      (v ∈ watchersOf (unwatch g name w) name ↔ v ∈ watchersOf g name))
  ∧ (∀ (g : StateGraph) (w : Nat),
      (unwatchAll g w).global_watchers = g.global_watchers.filter (fun x => x ≠ w))
  ∧ (∀ (g : StateGraph) (w : Nat),
      unwatchAll (unwatchAll g w) w = unwatchAll g w) := by
  refine ⟨watchersOf_watch, ?_, ?_, unwatch_idem, ?_, fun g w => rfl, unwatchAll_idem⟩
  · intro g name w
    rw [watchersOf_unwatch, if_pos rfl]
  · intro g name k w hk
    rw [watchersOf_unwatch, if_neg hk]
  · intro g name w v hv
    rw [watchersOf_unwatch, if_pos rfl]
    simp [List.mem_filter, hv]

/-- C9 witness: unsubscription on the concrete cycle graph leaves the
other key's list untouched and keeps a different callback registered. -/
theorem C9_unsubscribe_closures_witness :
    watchersOf (unwatch (watch cycleGraph ("X") 7) ("X") 7) ("Y")
      = watchersOf (watch cycleGraph ("X") 7) ("Y")
    ∧ (6 ∈ watchersOf (unwatch (watch cycleGraph ("X") 7) ("X") 7) ("X")
        ↔ 6 ∈ watchersOf (watch cycleGraph ("X") 7) ("X")) :=
  ⟨C9_unsubscribe_closures.2.2.1 (watch cycleGraph ("X") 7) ("X") ("Y") 7
      (by decide),
   C9_unsubscribe_closures.2.2.2.2.1 (watch cycleGraph ("X") 7) ("X") 7 6
      (by decide)⟩

/-- C10: registering the same callback twice for the same key makes it
occur twice in the list, and the unsubscribe closure (which filters by
identity) removes both occurrences at once — afterwards the callback
occurs zero times and is not in the dispatch sequence for that key
(provided it is not also a global watcher); same for `watch_all`. -/
theorem C10_duplicate_watcher_removed :
    (∀ (g : StateGraph) (k : String) (w : Nat),
      watchersOf (watch (watch g k w) k w) k = watchersOf g k ++ [w] ++ [w])
  ∧ (∀ (g : StateGraph) (k : String) (w : Nat),
      watchersOf (unwatch (watch (watch g k w) k w) k w) k
        = (watchersOf g k).filter (fun x => x ≠ w))
  ∧ (∀ (g : StateGraph) (k : String) (w : Nat),
      (watchersOf (unwatch (watch (watch g k w) k w) k w) k).count w = 0)
  ∧ (∀ (g : StateGraph) (k : String) (w : Nat), w ∉ g.global_watchers →
      (dispatchList (unwatch (watch (watch g k w) k w) k w) k).count w = 0)
  ∧ (∀ (g : StateGraph) (w : Nat),
      (unwatchAll (watchAll (watchAll g w) w) w).global_watchers
        = g.global_watchers.filter (fun x => x ≠ w)) := by
  have h1 : ∀ (g : StateGraph) (k : String) (w : Nat),
      watchersOf (watch (watch g k w) k w) k = watchersOf g k ++ [w] ++ [w] := by
    intro g k w
    rw [watchersOf_watch, watchersOf_watch]
  have h2 : ∀ (g : StateGraph) (k : String) (w : Nat),
      watchersOf (unwatch (watch (watch g k w) k w) k w) k
        = (watchersOf g k).filter (fun x => x ≠ w) := by
    intro g k w
    rw [watchersOf_unwatch, if_pos rfl, h1]
    simp [List.filter_append]
  have h3 : ∀ (g : StateGraph) (k : String) (w : Nat),
      (watchersOf (unwatch (watch (watch g k w) k w) k w) k).count w = 0 := by
    intro g k w
    rw [h2, List.count_eq_zero]
    exact not_mem_filter_ne _ _
  refine ⟨h1, h2, h3, ?_, ?_⟩
  · intro g k w hw
    show ((watchersOf (unwatch (watch (watch g k w) k w) k w) k)
      ++ g.global_watchers).count w = 0
    rw [List.count_append, h3, List.count_eq_zero.mpr hw]
  · intro g w
    show ((g.global_watchers ++ [w] ++ [w]).filter (fun x => x ≠ w))
      = g.global_watchers.filter (fun x => x ≠ w)
    simp [List.filter_append]

/-- C10 witness: a doubly-registered callback is fully removed from the
dispatch sequence of its key on the concrete cycle graph. -/
theorem C10_duplicate_watcher_removed_witness :
    (dispatchList (unwatch (watch (watch cycleGraph ("X") 3) ("X") 3) ("X") 3)
      ("X")).count 3 = 0 :=
  C10_duplicate_watcher_removed.2.2.2.1 cycleGraph ("X") 3 (List.not_mem_nil 3)

end Galvanize
